import Mathlib

/-!
# Verification of `src/utils/losses.py`

A shallow embedding of the loss functions and evaluation metrics of
`utils/losses.py` (textured-3d-gan).  Tensors are modelled as nested lists
over `ℚ` (exact rationals stand in for floats; the decimal literal `1e-6`
is embedded as `1/1000000`).  Fallible code — Python `assert` failures and
index errors — is modelled with `Option`: `none` means the call raises.
Rational division is total (`x / 0 = 0`); every claim settled below keeps
its divisors away from the float corner cases (NaN/inf) this cannot model,
and each such spot is noted at the definition.
-/

/-- Dot product of two vectors, `(a * b).sum(dim=-1)`.
`torch` requires equal lengths; `zipWith` silently truncates, which the
claims never exercise (their inputs are shape-consistent). -/
def dotP (a b : List ℚ) : ℚ := (List.zipWith (· * ·) a b).sum

/-- Sum of all entries of a 2-D tensor (reduction over dims `[-1, -2]`). -/
def sum2 (m : List (List ℚ)) : ℚ := (m.map List.sum).sum

/-- Number of entries of a 2-D tensor. -/
def count2 (m : List (List ℚ)) : ℕ := (m.map List.length).sum

/-- `torch.mean` over a 2-D tensor: total sum divided by element count.
`torch` returns NaN on an empty tensor; here `ℚ` gives `0 / 0 = 0` —
never exercised by the claims. -/
def mean2 (m : List (List ℚ)) : ℚ := sum2 m / (count2 m : ℚ)

/-- The mesh collaborator: `faces` (triangle index triples, only its length
is read by `loss_flat`) and `ff` (per-face, per-edge adjacent-face index). -/
structure Mesh where
  faces : List (List ℕ)
  ff : List (List ℕ)

/-- `loss_flat(mesh, norms)`: for each edge slot `i < 3`, gather each face's
neighbor normal through `mesh.ff[:, i]`, take the cosine
`(norm1 * norm2).sum(-1)`, accumulate `mean((cos - 1)^2)`, and scale the
total by `faces.shape[0] / 2`.  `norms` has shape (batch, num_faces, 3);
out-of-range `ff` entries (Python IndexError / wraparound) are modelled
with `getD _ []`, which no claim exercises. -/
def loss_flat (mesh : Mesh) (norms : List (List (List ℚ))) : ℚ :=
  ((List.range 3).foldl
    (fun acc i =>
      let cos : List (List ℚ) :=
        norms.map (fun b =>
          List.zipWith (fun n1 fr => dotP n1 (b.getD (fr.getD i 0) [])) b mesh.ff)
      acc + mean2 (cos.map (List.map (fun c => (c - 1) ^ 2)))) 0)
  * ((mesh.faces.length : ℚ) / 2)

/-- `mean_iou_noreduce(alpha_pred, alpha_real)`: binarize both maps at 0.5,
per batch element return `|pred ∧ real| / (|pred ∨ real| + 1e-6)` with the
spatial dims reduced.  Batch = leading list; each element an H×W matrix.
Fidelity caveat: the source sums in float32 (`.float()`), where adding
`1e-6` is absorbed by rounding once `union ≥ 32`, so the float denominator
can equal `union` exactly (and identical masks then yield exactly `1.0`);
the exact-ℚ denominator here is always strictly larger than `union`.
Properties that depend on that gap (e.g. a strict `< 1` bound on entries)
are therefore float-rounding facts outside this embedding; only
rounding-invariant facts about this function are proved below. -/
def mean_iou_noreduce (alpha_pred alpha_real : List (List (List ℚ))) : List ℚ :=
  List.zipWith (fun p r =>
    let inter := sum2 (List.zipWith (List.zipWith
      (fun a b => if 1/2 < a ∧ 1/2 < b then (1 : ℚ) else 0)) p r)
    let union := sum2 (List.zipWith (List.zipWith
      (fun a b => if 1/2 < a ∨ 1/2 < b then (1 : ℚ) else 0)) p r)
    inter / (union + 1/1000000)) alpha_pred alpha_real

/-- `mean_miou_noreduce(pred, target, balanced)`: per sample (leading list)
over channels (next list), `intersection = sum(min)`, `union = sum(max)`
over the spatial dims.  Balanced: per-channel IoU averaged over channels
whose target mass exceeds `1e-6` (the all-empty sample divides by zero:
NaN in torch, `0` here — flagged open question in the spec, untouched by
the claims).  Unbalanced: total intersection over total union + 1e-6. -/
def mean_miou_noreduce (pred target : List (List (List (List ℚ))))
    (balanced : Bool) : List ℚ :=
  List.zipWith (fun p t =>
    let inter := List.zipWith (fun pc tc =>
      sum2 (List.zipWith (List.zipWith min) pc tc)) p t
    let union := List.zipWith (fun pc tc =>
      sum2 (List.zipWith (List.zipWith max) pc tc)) p t
    if balanced then
      let iou := List.zipWith (fun i u => i / (u + 1/1000000)) inter union
      let wts := t.map (fun tc => if 1/1000000 < sum2 tc then (1 : ℚ) else 0)
      ((List.zipWith (· * ·) iou wts).sum) / wts.sum
    else
      inter.sum / (union.sum + 1/1000000)) pred target

/-- `F.softmax(xs, dim)` on one row, parametric in the backend's
exponential `e` (the tensor library is an external collaborator; every
theorem below holds for an arbitrary `e`). -/
def softmaxRow (e : ℚ → ℚ) (xs : List ℚ) : List ℚ :=
  let s := (xs.map e).sum
  xs.map (fun x => e x / s)

/-- `agreement_score(iou_or_miou, rotations, temperature)`:
`v_conf = softmax(iou / T, dim=1)`, `D = 1 - (R Rᵀ)^2` (pairwise dots of
the flattened rotation rows), and per batch element the confidence-weighted
sum `Σ_{i,j} D[i,j] · conf[i] · conf[j]`.  Batch pairing and the
hypothesis-pair sums use `zipWith` (shape mismatches are caller errors per
the spec). -/
def agreement_score (e : ℚ → ℚ) (iou_or_miou : List (List ℚ))
    (rotations : List (List (List ℚ))) (temperature : ℚ) : List ℚ :=
  List.zipWith (fun confRow hyps =>
    let c := softmaxRow e (confRow.map (· / temperature))
    (List.zipWith (fun hi ci =>
      (List.zipWith (fun hj cj => (1 - (dotP hi hj) ^ 2) * (ci * cj)) hyps c).sum)
      hyps c).sum) iou_or_miou rotations

/-- `geodesic_distance(predicted, target, return_count)`:
asserts equal shapes (`none` on failure), takes per-row distance
`1 - (pred·target)^2`, keeps rows whose target component 0 differs from the
`-1000` sentinel, and returns their mean (with the valid count when
`return_count`); zero valid rows short-circuit to `(0, 0)`.  The count slot
of the result is `none` exactly when `return_count = false`.  Component 0
is read with `headD 0` (an empty last dim would be a Python IndexError,
never exercised). -/
def geodesic_distance (predicted_rotations target_rotations : List (List ℚ))
    (return_count : Bool) : Option (ℚ × Option ℕ) :=
  if predicted_rotations.map List.length = target_rotations.map List.length then
    let Rdist := List.zipWith (fun p t => 1 - (dotP p t) ^ 2)
      predicted_rotations target_rotations
    let valid := (List.zipWith (fun d t => (d, decide (t.headD 0 ≠ (-1000 : ℚ))))
      Rdist target_rotations).filterMap
      (fun dm => if dm.2 then some dm.1 else none)
    let count := valid.length
    if count = 0 then
      some (0, if return_count then some 0 else none)
    else
      some (valid.sum / (count : ℚ), if return_count then some count else none)
  else none

/-- `LaplacianLoss.forward`: `x ↦ L @ x`, squared, summed over all
non-batch dims, giving one value per batch element; with `average = true`
the batch is summed and divided by the batch size (a 0-dim tensor, modelled
as a one-element list). `laplacian` is the fixed buffer registered at
construction. -/
def LaplacianLoss.forward (laplacian : List (List ℚ)) (average : Bool)
    (x : List (List (List ℚ))) : List ℚ :=
  let per := x.map (fun xb =>
    let y := laplacian.map (fun lrow =>
      (List.range (xb.headD []).length).map (fun j =>
        dotP lrow (xb.map (fun vrow => vrow.getD j 0))))
    sum2 (y.map (List.map (fun v => v ^ 2))))
  if average then [per.sum / (x.length : ℚ)] else per

/-- 4-D tensors (batch, channel, H, W) — the shape `GANLoss.mean` reduces
over dims `[1, 2, 3]`. -/
abbrev T4 := List (List (List (List ℚ)))

/-- Sum of all entries of a 3-D tensor. -/
def sum3 (t : List (List (List ℚ))) : ℚ := (t.map sum2).sum

/-- Number of entries of a 3-D tensor. -/
def count3 (t : List (List (List ℚ))) : ℕ := (t.map count2).sum

/-- Sum of all entries of a 4-D tensor. -/
def sum4 (x : T4) : ℚ := (x.map sum3).sum

/-- Number of entries of a 4-D tensor. -/
def count4 (x : T4) : ℕ := (x.map count3).sum

/-- `torch.mean` over a 4-D tensor (empty tensor: NaN in torch, `0` here;
never exercised by the claims). -/
def tmean (x : T4) : ℚ := sum4 x / (count4 x : ℚ)

/-- The shape tree of a 4-D tensor; two tensors have equal `torch` shapes
iff their shape trees agree (all inputs of interest are rectangular). -/
def shape4 (x : T4) : List (List (List ℕ)) :=
  x.map (fun a => a.map (fun m => m.map List.length))

/-- `scalar_tensor.expand_as(input)`: a constant tensor shaped like `x`. -/
def expandLike (c : ℚ) (x : T4) : T4 :=
  x.map (List.map (List.map (List.map (fun _ => c))))

/-- Elementwise map over a 4-D tensor. -/
def map4 (f : ℚ → ℚ) (x : T4) : T4 :=
  x.map (List.map (List.map (List.map f)))

/-- Elementwise combination of two 4-D tensors (equal shapes assumed by
`torch`; `zipWith` truncates, unexercised by the claims). -/
def zip4 (f : ℚ → ℚ → ℚ) (x y : T4) : T4 :=
  List.zipWith (fun a b => List.zipWith (fun c d =>
    List.zipWith (List.zipWith f) c d) a b) x y

/-- Elementwise product of two 3-D tensors (`x * mask` inside a sample). -/
def mul3 (a b : List (List (List ℚ))) : List (List (List ℚ)) :=
  List.zipWith (fun c d => List.zipWith (List.zipWith (· * ·)) c d) a b

/-- `F.mse_loss(input, target)` with the default mean reduction. -/
def mseLoss (x t : T4) : ℚ := tmean (zip4 (fun a b => (a - b) ^ 2) x t)

/-- The `GANLoss` module state: the objective mode string and the two
configurable label values (defaults 1.0 / 0.0).  The lazily cached label /
zero tensors are value-irrelevant (pure broadcast constants), so they need
no state here. -/
structure GANLoss where
  gan_mode : String
  real_label : ℚ := 1
  fake_label : ℚ := 0

/-- `GANLoss.mean(x, mask, weight)`: plain mean times weight (default 1)
without a mask; with a mask, asserts equal shapes (`none` on failure), then
takes per-sample `sum(x*mask, [1,2,3]) / sum(mask, [1,2,3])`, means over
the batch and scales by the weight.  An all-zero mask sample divides by
zero (NaN in torch, `0` here — unexercised by the claims). -/
def GANLoss.mean (x : T4) (mask : Option T4) (weight : Option ℚ) : Option ℚ :=
  let w := weight.getD 1
  match mask with
  | none => some (tmean x * w)
  | some m =>
    if shape4 x = shape4 m then
      let ret := List.zipWith (fun xb mb => sum3 (mul3 xb mb) / sum3 mb) x m
      some ((ret.sum / (ret.length : ℚ)) * w)
    else none

/-- `GANLoss.loss(input, target_is_real, for_discriminator, mask, weight)`,
dispatching on `gan_mode` in the source's `if/elif` order; the final `else`
is the wgan branch exactly as in the source.  `bce` is the backend's
`F.binary_cross_entropy_with_logits` mean reduction (external collaborator:
its value needs a transcendental `log`, so it is a parameter; every theorem
below holds for arbitrary `bce`).  `none` models the hinge generator-mode
assertion failure. -/
def GANLoss.loss (G : GANLoss) (bce : T4 → T4 → ℚ) (input : T4)
    (target_is_real for_discriminator : Bool)
    (mask : Option T4) (weight : Option ℚ) : Option ℚ :=
  if G.gan_mode = "original" then
    some (bce input
      (expandLike (if target_is_real then G.real_label else G.fake_label) input))
  else if G.gan_mode = "ls" then
    some (mseLoss input
      (expandLike (if target_is_real then G.real_label else G.fake_label) input))
  else if G.gan_mode = "hinge" then
    if for_discriminator then
      if target_is_real then
        (GANLoss.mean (zip4 min (map4 (· - 1) input) (expandLike 0 input))
          mask weight).map (fun r => -r)
      else
        (GANLoss.mean (zip4 min (map4 (fun v => -v - 1) input) (expandLike 0 input))
          mask weight).map (fun r => -r)
    else
      if target_is_real then
        (GANLoss.mean input mask weight).map (fun r => -r)
      else none
  else
    if target_is_real then some (-(tmean input)) else some (tmean input)

/-- A multi-scale prediction entry: a plain tensor, or a nested list of
which `__call__` uses the last element (`pred_i[-1]`). -/
abbrev ScaleIn := T4 ⊕ List T4

/-- `pred_i if not a list else pred_i[-1]`; `none` models the IndexError
on an empty nested list. -/
def predOf : ScaleIn → Option T4
  | Sum.inl t => some t
  | Sum.inr l => l.getLast?

/-- `lst[idx]` under an optional list: `some none` when the list argument
was `None` (no per-scale value), `none` when indexing raises IndexError. -/
def optIdx (l : Option (List α)) (i : ℕ) : Option (Option α) :=
  match l with
  | none => some none
  | some xs => (xs.get? i).map some

/-- The accumulation loop of `GANLoss.__call__` over the per-scale
predictions, carrying the running index for `mask[idx]` / `weight[idx]`.
Each scale's loss is a 0-dim tensor (every `GANLoss.loss` branch reduces to
a scalar), so the `view(bs, -1)` / per-row mean step is the identity on the
value and the loop is a plain sum.  `none` anywhere models the raised
exception. -/
def GANLoss.callGo (G : GANLoss) (bce : T4 → T4 → ℚ)
    (target_is_real for_discriminator : Bool)
    (mask : Option (List T4)) (weight : Option (List ℚ)) :
    ℕ → List ScaleIn → Option ℚ
  | _, [] => some 0
  | idx, e :: rest => do
    let p ← predOf e
    let m ← optIdx mask idx
    let w ← optIdx weight idx
    let l ← GANLoss.loss G bce p target_is_real for_discriminator m w
    let acc ← GANLoss.callGo G bce target_is_real for_discriminator
      mask weight (idx + 1) rest
    pure (l + acc)

/-- `GANLoss.__call__` on a list input: asserts the mask list (when given)
has the input's length, accumulates the per-scale losses, and divides by
the number of scales (weight `None`) or by `sum(weight)` — the sum of the
whole weight list.  Note the source checks no length for `weight`: a short
list raises IndexError inside the loop (`none` here); a long one is
accepted.  An empty input with no weight (or zero weight sum) is a Python
`0 / 0` ZeroDivisionError, hence `none`; a nonempty input with zero weight
sum is a float `inf`/NaN in torch, not modelled (and unexercised). -/
def GANLoss.call (G : GANLoss) (bce : T4 → T4 → ℚ) (input : List ScaleIn)
    (target_is_real for_discriminator : Bool)
    (mask : Option (List T4)) (weight : Option (List ℚ)) : Option ℚ :=
  if (match mask with
      | none => true
      | some ml => ml.length == input.length) then
    match GANLoss.callGo G bce target_is_real for_discriminator
      mask weight 0 input with
    | none => none
    | some acc =>
      match weight with
      | none =>
        if input.length = 0 then none else some (acc / (input.length : ℚ))
      | some wl =>
        if input.length = 0 ∧ wl.sum = 0 then none else some (acc / wl.sum)
  else none

/-- A concrete stand-in for the backend's `binary_cross_entropy_with_logits`
used when instantiating theorems on closed inputs. -/
def bceZero : T4 → T4 → ℚ := fun _ _ => 0

/-- A concrete stand-in for the backend's exponential used when
instantiating theorems on closed inputs. -/
def expOne : ℚ → ℚ := fun _ => 1

/- ======================  Theorems  ====================== -/

/-- Identical predicted and target rows of unit norm give an all-zero
per-row distance table `1 - (pred·target)^2`. -/
theorem zipWith_dist_self (R : List (List ℚ)) (h : ∀ r ∈ R, dotP r r = 1) :
    List.zipWith (fun p t => 1 - dotP p t ^ 2) R R = List.replicate R.length 0 := by
  induction R with
  | nil => rfl
  | cons r rs ih =>
    simp only [List.zipWith_cons_cons, List.length_cons, List.replicate_succ]
    have h0 : 1 - dotP r r ^ 2 = 0 := by
      rw [h r (List.mem_cons_self r rs)]; ring
    rw [h0, ih (fun a ha => h a (List.mem_cons_of_mem _ ha))]

/-- The mask-selection step keeps only first components, so a pair list
whose first components are all `0` filters to a zero-sum selection. -/
theorem filterMap_pairs_zero_sum (l : List (ℚ × Bool)) (h : ∀ p ∈ l, p.1 = 0) :
    (l.filterMap (fun dm => if dm.2 then some dm.1 else none)).sum = 0 := by
  induction l with
  | nil => rfl
  | cons a l ih =>
    have ha : a.1 = 0 := h a (List.mem_cons_self a l)
    have hrest := ih (fun p hp => h p (List.mem_cons_of_mem _ hp))
    rcases a with ⟨x, b⟩
    cases b <;> simp_all

/-- Pairing an all-zero distance table with the sentinel mask yields pairs
whose first components are all `0`. -/
theorem zip_replicate_fst_zero (g : List ℚ → Bool) :
    ∀ (ts : List (List ℚ)) (n : ℕ) (p : ℚ × Bool),
      p ∈ List.zipWith (fun d t => (d, g t)) (List.replicate n (0 : ℚ)) ts →
      p.1 = 0 := by
  intro ts
  induction ts with
  | nil => intro n p hp; simp at hp
  | cons t ts ih =>
    intro n p hp
    cases n with
    | zero => simp at hp
    | succ m =>
      rw [List.replicate_succ, List.zipWith_cons_cons, List.mem_cons] at hp
      rcases hp with hp | hp
      · rw [hp]
      · exact ih m p hp

/-- C1: for every batch `R` of rotations (unit-norm representation rows)
whose rows carry a valid sentinel (component 0 different from `-1000`),
`geodesic_distance R R` — the same tensor as prediction and target —
returns `0`. -/
theorem geodesic_distance_self_zero (R : List (List ℚ))
    (hrot : ∀ r ∈ R, dotP r r = 1)
    (hvalid : ∀ r ∈ R, r.headD 0 ≠ (-1000 : ℚ)) :
    geodesic_distance R R false = some (0, none) := by
  unfold geodesic_distance
  rw [if_pos rfl]
  simp only [zipWith_dist_self R hrot]
  have hsum := filterMap_pairs_zero_sum _
    (zip_replicate_fst_zero (fun t => decide (t.headD 0 ≠ (-1000 : ℚ))) R R.length)
  split
  · norm_num
  · rw [hsum, zero_div]
    norm_num

/-- C1 witness: a concrete unit quaternion batch. -/
theorem geodesic_distance_self_zero_witness :
    geodesic_distance [[1, 0, 0, 0]] [[1, 0, 0, 0]] false = some (0, none) :=
  geodesic_distance_self_zero [[1, 0, 0, 0]]
    (by intro r hr; rw [List.mem_singleton] at hr; subst hr; norm_num [dotP])
    (by intro r hr; rw [List.mem_singleton] at hr; subst hr; norm_num)

/-- A pair list whose mask components are all `false` filters to the empty
selection. -/
theorem filterMap_pairs_false (l : List (ℚ × Bool)) (h : ∀ p ∈ l, p.2 = false) :
    l.filterMap (fun dm => if dm.2 then some dm.1 else none) = [] := by
  induction l with
  | nil => rfl
  | cons a l ih =>
    have ha : a.2 = false := h a (List.mem_cons_self a l)
    have hrest := ih (fun p hp => h p (List.mem_cons_of_mem _ hp))
    rcases a with ⟨x, b⟩
    simp_all

/-- With every target row carrying the `-1000` sentinel in component 0,
every mask entry is `false`. -/
theorem zip_sentinel_snd_false (ds : List ℚ) (ts : List (List ℚ))
    (h : ∀ t ∈ ts, t.headD 0 = (-1000 : ℚ)) :
    ∀ p ∈ List.zipWith (fun d t => (d, decide (t.headD 0 ≠ (-1000 : ℚ)))) ds ts,
      p.2 = false := by
  induction ds generalizing ts with
  | nil => intro p hp; simp at hp
  | cons d ds ih =>
    cases ts with
    | nil => intro p hp; simp at hp
    | cons t ts =>
      intro p hp
      rw [List.zipWith_cons_cons, List.mem_cons] at hp
      rcases hp with hp | hp
      · have h1 : t.headD 0 = (-1000 : ℚ) := h t (List.mem_cons_self t ts)
        rw [List.headD_eq_head?] at h1
        rw [hp]
        simp [h1]
      · exact ih ts (fun a ha => h a (List.mem_cons_of_mem _ ha)) p hp

/-- C4: equal-shaped inputs whose target rows all carry the `-1000`
sentinel in component 0 make `geodesic_distance` return `(0, 0)` with
`return_count = true` and `0` without, instead of dividing by zero. -/
theorem geodesic_distance_all_sentinel (pred target : List (List ℚ))
    (hshape : pred.map List.length = target.map List.length)
    (hsent : ∀ t ∈ target, t.headD 0 = (-1000 : ℚ)) :
    geodesic_distance pred target true = some (0, some 0) ∧
    geodesic_distance pred target false = some (0, none) := by
  constructor <;>
    (unfold geodesic_distance
     rw [if_pos hshape]
     simp only [filterMap_pairs_false _ (zip_sentinel_snd_false _ _ hsent)]
     norm_num)

/-- C4 witness: a concrete all-sentinel target batch. -/
theorem geodesic_distance_all_sentinel_witness :
    geodesic_distance [[1, 0, 0, 0]] [[-1000, 0, 0, 0]] true = some (0, some 0) ∧
    geodesic_distance [[1, 0, 0, 0]] [[-1000, 0, 0, 0]] false = some (0, none) :=
  geodesic_distance_all_sentinel [[1, 0, 0, 0]] [[-1000, 0, 0, 0]] rfl
    (by intro t ht; rw [List.mem_singleton] at ht; subst ht; norm_num)

/-- On 0/1 rows, elementwise `min` sums to the binarized intersection
indicator sum. -/
theorem sum_zip_binary_min (xs : List ℚ) :
    ∀ ys : List ℚ, (∀ x ∈ xs, x = 0 ∨ x = 1) → (∀ y ∈ ys, y = 0 ∨ y = 1) →
      (List.zipWith min xs ys).sum
        = (List.zipWith (fun a b => if 1/2 < a ∧ 1/2 < b then (1 : ℚ) else 0)
            xs ys).sum := by
  induction xs with
  | nil => intro ys _ _; simp
  | cons x xs ih =>
    intro ys hx hy
    cases ys with
    | nil => simp
    | cons y ys =>
      rw [List.zipWith_cons_cons, List.zipWith_cons_cons, List.sum_cons,
        List.sum_cons, ih ys (fun a ha => hx a (List.mem_cons_of_mem _ ha))
          (fun a ha => hy a (List.mem_cons_of_mem _ ha))]
      congr 1
      rcases hx x (List.mem_cons_self x xs) with rfl | rfl <;>
        rcases hy y (List.mem_cons_self y ys) with rfl | rfl <;>
        norm_num [min_def]

/-- On 0/1 rows, elementwise `max` sums to the binarized union indicator
sum. -/
theorem sum_zip_binary_max (xs : List ℚ) :
    ∀ ys : List ℚ, (∀ x ∈ xs, x = 0 ∨ x = 1) → (∀ y ∈ ys, y = 0 ∨ y = 1) →
      (List.zipWith max xs ys).sum
        = (List.zipWith (fun a b => if 1/2 < a ∨ 1/2 < b then (1 : ℚ) else 0)
            xs ys).sum := by
  induction xs with
  | nil => intro ys _ _; simp
  | cons x xs ih =>
    intro ys hx hy
    cases ys with
    | nil => simp
    | cons y ys =>
      rw [List.zipWith_cons_cons, List.zipWith_cons_cons, List.sum_cons,
        List.sum_cons, ih ys (fun a ha => hx a (List.mem_cons_of_mem _ ha))
          (fun a ha => hy a (List.mem_cons_of_mem _ ha))]
      congr 1
      rcases hx x (List.mem_cons_self x xs) with rfl | rfl <;>
        rcases hy y (List.mem_cons_self y ys) with rfl | rfl <;>
        norm_num [max_def]

/-- Matrix version of `sum_zip_binary_min`. -/
theorem sum2_zip_binary_min (p : List (List ℚ)) :
    ∀ t : List (List ℚ),
      (∀ row ∈ p, ∀ x ∈ row, x = 0 ∨ x = 1) →
      (∀ row ∈ t, ∀ x ∈ row, x = 0 ∨ x = 1) →
      sum2 (List.zipWith (List.zipWith min) p t)
        = sum2 (List.zipWith (List.zipWith
            (fun a b => if 1/2 < a ∧ 1/2 < b then (1 : ℚ) else 0)) p t) := by
  induction p with
  | nil => intro t _ _; simp [sum2]
  | cons pr ps ih =>
    intro t hp ht
    cases t with
    | nil => simp [sum2]
    | cons tr ts =>
      rw [List.zipWith_cons_cons, List.zipWith_cons_cons]
      simp only [sum2, List.map_cons, List.sum_cons]
      rw [sum_zip_binary_min pr tr (hp pr (List.mem_cons_self pr ps))
        (ht tr (List.mem_cons_self tr ts))]
      congr 1
      simpa [sum2] using ih ts
        (fun row hr => hp row (List.mem_cons_of_mem _ hr))
        (fun row hr => ht row (List.mem_cons_of_mem _ hr))

/-- Matrix version of `sum_zip_binary_max`. -/
theorem sum2_zip_binary_max (p : List (List ℚ)) :
    ∀ t : List (List ℚ),
      (∀ row ∈ p, ∀ x ∈ row, x = 0 ∨ x = 1) →
      (∀ row ∈ t, ∀ x ∈ row, x = 0 ∨ x = 1) →
      sum2 (List.zipWith (List.zipWith max) p t)
        = sum2 (List.zipWith (List.zipWith
            (fun a b => if 1/2 < a ∨ 1/2 < b then (1 : ℚ) else 0)) p t) := by
  induction p with
  | nil => intro t _ _; simp [sum2]
  | cons pr ps ih =>
    intro t hp ht
    cases t with
    | nil => simp [sum2]
    | cons tr ts =>
      rw [List.zipWith_cons_cons, List.zipWith_cons_cons]
      simp only [sum2, List.map_cons, List.sum_cons]
      rw [sum_zip_binary_max pr tr (hp pr (List.mem_cons_self pr ps))
        (ht tr (List.mem_cons_self tr ts))]
      congr 1
      simpa [sum2] using ih ts
        (fun row hr => hp row (List.mem_cons_of_mem _ hr))
        (fun row hr => ht row (List.mem_cons_of_mem _ hr))

/-- C6: on 0/1 binary single-channel masks, unbalanced
`mean_miou_noreduce` computes exactly the `mean_iou_noreduce` ratio
(each sample's matrix wrapped as its only channel). -/
theorem miou_unbalanced_binary_eq_iou (pred target : List (List (List ℚ)))
    (hp : ∀ m ∈ pred, ∀ row ∈ m, ∀ x ∈ row, x = 0 ∨ x = 1)
    (ht : ∀ m ∈ target, ∀ row ∈ m, ∀ x ∈ row, x = 0 ∨ x = 1) :
    mean_miou_noreduce (pred.map (fun m => [m])) (target.map (fun m => [m])) false
      = mean_iou_noreduce pred target := by
  induction pred generalizing target with
  | nil => cases target <;> simp [mean_miou_noreduce, mean_iou_noreduce]
  | cons p ps ih =>
    cases target with
    | nil => simp [mean_miou_noreduce, mean_iou_noreduce]
    | cons t ts =>
      simp only [List.map_cons]
      rw [mean_miou_noreduce, mean_iou_noreduce, List.zipWith_cons_cons,
        List.zipWith_cons_cons]
      congr 1
      · dsimp only
        rw [List.zipWith_cons_cons, List.zipWith_cons_cons]
        simp only [List.zipWith_nil_right, List.sum_cons, List.sum_nil,
          Bool.false_eq_true, if_false, add_zero]
        rw [sum2_zip_binary_min p t (hp p (List.mem_cons_self p ps))
          (ht t (List.mem_cons_self t ts)),
          sum2_zip_binary_max p t (hp p (List.mem_cons_self p ps))
          (ht t (List.mem_cons_self t ts))]
      · simpa [mean_miou_noreduce, mean_iou_noreduce] using ih ts
          (fun m hm => hp m (List.mem_cons_of_mem _ hm))
          (fun m hm => ht m (List.mem_cons_of_mem _ hm))

/-- C6 witness: a concrete binary mask pair. -/
theorem miou_unbalanced_binary_eq_iou_witness :
    mean_miou_noreduce [[[[1, 0], [0, 1]]]] [[[[1, 1], [0, 1]]]] false
      = mean_iou_noreduce [[[1, 0], [0, 1]]] [[[1, 1], [0, 1]]] :=
  miou_unbalanced_binary_eq_iou [[[1, 0], [0, 1]]] [[[1, 1], [0, 1]]]
    (by norm_num [List.forall_mem_cons]) (by norm_num [List.forall_mem_cons])

/-- C7: on a batch of size 1, `LaplacianLoss.forward` with `average = false`
returns the same value as with `average = true` (the single per-sample
value, untouched by the divide-by-batch-size). -/
theorem laplacian_forward_batch_one (laplacian : List (List ℚ))
    (x : List (List (List ℚ))) (hx : x.length = 1) :
    LaplacianLoss.forward laplacian false x
      = LaplacianLoss.forward laplacian true x := by
  obtain ⟨s, rfl⟩ : ∃ s, x = [s] := by
    cases x with
    | nil => simp at hx
    | cons a l =>
      cases l with
      | nil => exact ⟨a, rfl⟩
      | cons b m => simp at hx
  simp [LaplacianLoss.forward]

/-- C7 witness: a concrete 2-vertex Laplacian and batch-1 input. -/
theorem laplacian_forward_batch_one_witness :
    LaplacianLoss.forward [[1, -1], [-1, 1]] false [[[1, 2], [3, 4]]]
      = LaplacianLoss.forward [[1, -1], [-1, 1]] true [[[1, 2], [3, 4]]] :=
  laplacian_forward_batch_one [[1, -1], [-1, 1]] [[[1, 2], [3, 4]]] rfl

/-- C5: with `gan_mode = 'hinge'`, generator mode (`for_discriminator =
false`) and `target_is_real = false` fails the assertion; with
`target_is_real = true` it returns the negated masked/weighted mean of the
raw input. -/
theorem gan_hinge_generator_contract (G : GANLoss) (h : G.gan_mode = "hinge")
    (bce : T4 → T4 → ℚ) (input : T4) (mask : Option T4) (weight : Option ℚ) :
    GANLoss.loss G bce input false false mask weight = none ∧
    GANLoss.loss G bce input true false mask weight
      = (GANLoss.mean input mask weight).map (fun r => -r) := by
  unfold GANLoss.loss
  rw [h]
  simp

/-- C5 witness: a concrete hinge-mode instance. -/
theorem gan_hinge_generator_contract_witness :
    GANLoss.loss ⟨"hinge", 1, 0⟩ bceZero [[[[2]]]] false false none none = none ∧
    GANLoss.loss ⟨"hinge", 1, 0⟩ bceZero [[[[2]]]] true false none none
      = (GANLoss.mean [[[[2]]]] none none).map (fun r => -r) :=
  gan_hinge_generator_contract ⟨"hinge", 1, 0⟩ rfl bceZero [[[[2]]]] none none

/-- C9: in the `ls`, `original` and `w` modes, `GANLoss.loss` never reads
the mask or weight arguments: any two calls differing only in mask and/or
weight agree. -/
theorem gan_loss_mask_weight_independent (G : GANLoss)
    (h : G.gan_mode = "ls" ∨ G.gan_mode = "original" ∨ G.gan_mode = "w")
    (bce : T4 → T4 → ℚ) (input : T4) (target_is_real for_discriminator : Bool)
    (mask1 mask2 : Option T4) (weight1 weight2 : Option ℚ) :
    GANLoss.loss G bce input target_is_real for_discriminator mask1 weight1
      = GANLoss.loss G bce input target_is_real for_discriminator mask2 weight2 := by
  rcases h with h | h | h <;> (unfold GANLoss.loss; rw [h]; simp)

/-- C9 witness: a concrete Wasserstein-mode instance with differing mask
and weight arguments. -/
theorem gan_loss_mask_weight_independent_witness :
    GANLoss.loss ⟨"w", 1, 0⟩ bceZero [[[[3]]]] true true (some [[[[1]]]]) (some 5)
      = GANLoss.loss ⟨"w", 1, 0⟩ bceZero [[[[3]]]] true true none none :=
  gan_loss_mask_weight_independent ⟨"w", 1, 0⟩ (Or.inr (Or.inr rfl)) bceZero
    [[[[3]]]] true true (some [[[[1]]]]) none (some 5) none

/-- C3: with exactly one rotation hypothesis per batch element (each a
unit-norm representation row) and any confidence input, `agreement_score`
is zero at every batch position. -/
theorem agreement_score_single_hypothesis (e : ℚ → ℚ) (iou : List (List ℚ))
    (rots : List (List (List ℚ))) (temperature : ℚ)
    (h : ∀ b ∈ rots, ∃ r, b = [r] ∧ dotP r r = 1) :
    agreement_score e iou rots temperature
      = List.replicate (min iou.length rots.length) 0 := by
  induction iou generalizing rots with
  | nil => simp [agreement_score]
  | cons cr crs ih =>
    cases rots with
    | nil => simp [agreement_score]
    | cons b bs =>
      obtain ⟨r, rfl, hr⟩ := h b (List.mem_cons_self b bs)
      have hhead :
          (List.zipWith (fun hi ci =>
            (List.zipWith (fun hj cj => (1 - dotP hi hj ^ 2) * (ci * cj)) [r]
              (softmaxRow e (cr.map (· / temperature)))).sum) [r]
            (softmaxRow e (cr.map (· / temperature)))).sum = 0 := by
        cases softmaxRow e (cr.map (· / temperature)) with
        | nil => simp
        | cons c0 cs => simp [hr]
      simp only [agreement_score, List.zipWith_cons_cons, List.length_cons,
        Nat.succ_min_succ, List.replicate_succ]
      rw [hhead]
      congr 1
      simpa [agreement_score] using ih bs
        (fun x hx => h x (List.mem_cons_of_mem _ hx))

/-- C3 witness: one unit quaternion hypothesis, arbitrary confidence. -/
theorem agreement_score_single_hypothesis_witness :
    agreement_score expOne [[5]] [[[1, 0, 0, 0]]] (1/100)
      = List.replicate (min 1 1) 0 :=
  agreement_score_single_hypothesis expOne [[5]] [[[1, 0, 0, 0]]] (1/100)
    (by
      intro b hb
      rw [List.mem_singleton] at hb
      subst hb
      exact ⟨[1, 0, 0, 0], rfl, by norm_num [dotP]⟩)

/-- A table whose entries are all zero has mean zero. -/
theorem mean2_zero (m : List (List ℚ)) (h : ∀ row ∈ m, ∀ x ∈ row, x = 0) :
    mean2 m = 0 := by
  have hs : sum2 m = 0 := by
    unfold sum2
    rw [List.sum_eq_zero]
    intro x hx
    rw [List.mem_map] at hx
    obtain ⟨row, hrow, rfl⟩ := hx
    exact List.sum_eq_zero (h row hrow)
  rw [mean2, hs, zero_div]

/-- C8: on a mesh of 2 faces whose `ff` adjacency is fully populated (each
face the other's neighbor across all 3 edges), and per-face unit normals
identical for both faces in every batch element, `loss_flat` is `0`. -/
theorem loss_flat_two_faces_shared_normals (mesh : Mesh)
    (norms : List (List (List ℚ)))
    (hfaces : mesh.faces.length = 2)
    (hff : mesh.ff = [[1, 1, 1], [0, 0, 0]])
    (hn : ∀ b ∈ norms, ∃ n, b = [n, n] ∧ dotP n n = 1) :
    loss_flat mesh norms = 0 := by
  have hterm : ∀ i : ℕ,
      mean2 ((norms.map (fun b =>
        List.zipWith (fun n1 fr => dotP n1 (b.getD (fr.getD i 0) [])) b
          mesh.ff)).map (List.map (fun c => (c - 1) ^ 2))) = 0 := by
    intro i
    apply mean2_zero
    intro row hrow x hx
    rw [List.mem_map] at hrow
    obtain ⟨crow, hcrow, rfl⟩ := hrow
    rw [List.mem_map] at hcrow
    obtain ⟨b, hb, rfl⟩ := hcrow
    obtain ⟨n, rfl, hdot⟩ := hn b hb
    rw [hff] at hx
    rcases i with _ | _ | _ | i <;> simp [hdot] at hx <;> exact hx
  unfold loss_flat
  rw [show List.range 3 = [0, 1, 2] from rfl]
  simp only [List.foldl_cons, List.foldl_nil]
  rw [hterm 0, hterm 1, hterm 2]
  norm_num

/-- C8 witness: a concrete 2-face mesh with shared unit normals. -/
theorem loss_flat_two_faces_shared_normals_witness :
    loss_flat ⟨[[0, 1, 2], [0, 2, 3]], [[1, 1, 1], [0, 0, 0]]⟩
      [[[1, 0, 0], [1, 0, 0]]] = 0 :=
  loss_flat_two_faces_shared_normals _ _ rfl rfl
    (by
      intro b hb
      rw [List.mem_singleton] at hb
      subst hb
      exact ⟨[1, 0, 0], rfl, by norm_num [dotP]⟩)

/-- When the weight list is shorter than the remaining scales, the
accumulation loop always raises: every path either fails earlier or
reaches the out-of-range `weight[idx]` access. -/
theorem callGo_weight_short (G : GANLoss) (bce : T4 → T4 → ℚ)
    (t f : Bool) (mask : Option (List T4)) (wl : List ℚ) :
    ∀ (l : List ScaleIn) (idx : ℕ), idx ≤ wl.length →
      wl.length < idx + l.length →
      GANLoss.callGo G bce t f mask (some wl) idx l = none := by
  intro l
  induction l with
  | nil =>
    intro idx h1 h2
    simp at h2
    omega
  | cons e rest ih =>
    intro idx h1 h2
    rw [GANLoss.callGo]
    cases hp : predOf e with
    | none => simp
    | some p =>
      cases hm : optIdx mask idx with
      | none => simp [hm]
      | some m =>
        rcases hw : wl[idx]? with _ | w
        · simp [hm, optIdx, hw]
        · have hidx : idx < wl.length := by
            by_contra hge
            push_neg at hge
            rw [List.getElem?_eq_none hge] at hw
            exact Option.noConfusion hw
          have hrec := ih (idx + 1) (by omega)
            (by simp only [List.length_cons] at h2; omega)
          cases hl : GANLoss.loss G bce p t f m (some w) with
          | none => simp [hm, optIdx, hw, hl]
          | some lv => simp [hm, optIdx, hw, hl, hrec]

/-- C2 counterexample: a weight list LONGER than the input list does not
make the call fail — no length is checked for `weight`, the loop only
reads the indices it needs, and the result divides by the sum of the whole
weight list (here `(0-1)^2 = 1` per the single `ls` scale, divided by
`1 + 1 = 2`). -/
theorem gan_call_long_weight_list_succeeds :
    GANLoss.call ⟨"ls", 1, 0⟩ bceZero [Sum.inl [[[[0]]]]] true true none
      (some [1, 1]) = some (1/2) := by
  norm_num [GANLoss.call, GANLoss.callGo, GANLoss.loss, predOf, optIdx, bceZero,
    mseLoss, expandLike, zip4, tmean, sum4, sum3, sum2, count4, count3, count2]
  simp

/-- C2 (amended): a mask list of the wrong length fails the assertion; a
weight list SHORTER than the input fails (IndexError) while a longer one is
accepted; and a successful call divides the accumulated per-scale loss by
the number of scales when `weight` is `None` and by the sum of the whole
provided weight list otherwise. -/
theorem gan_call_length_and_normalization (G : GANLoss) (bce : T4 → T4 → ℚ)
    (input : List ScaleIn) (t f : Bool)
    (mask : Option (List T4)) (weight : Option (List ℚ)) :
    (∀ ml, mask = some ml → ml.length ≠ input.length →
      GANLoss.call G bce input t f mask weight = none) ∧
    (∀ wl, weight = some wl → wl.length < input.length →
      GANLoss.call G bce input t f mask weight = none) ∧
    (∀ acc, (∀ ml, mask = some ml → ml.length = input.length) →
      GANLoss.callGo G bce t f mask weight 0 input = some acc →
      input ≠ [] →
      GANLoss.call G bce input t f mask weight
        = some (acc / (match weight with
            | none => (input.length : ℚ)
            | some wl => wl.sum))) := by
  refine ⟨?_, ?_, ?_⟩
  · intro ml hml hne
    subst hml
    simp [GANLoss.call, hne]
  · intro wl hwl hlt
    subst hwl
    rw [GANLoss.call.eq_def]
    split
    · rw [callGo_weight_short G bce t f mask wl input 0 (Nat.zero_le _)
        (by omega)]
    · rfl
  · intro acc hmask hgo hne
    rw [GANLoss.call.eq_def]
    split
    · rw [hgo]
      have hlen : input.length ≠ 0 := by
        simpa [List.length_eq_zero] using hne
      cases weight with
      | none =>
        dsimp only
        rw [if_neg hlen]
      | some wl =>
        dsimp only
        rw [if_neg (by
          rintro ⟨h0, _⟩
          exact hlen h0)]
    · rename_i hcond
      exfalso
      cases mask with
      | none => exact hcond rfl
      | some ml => exact hcond (by simp [hmask ml rfl])

/-- C2 witness: a mask list of the wrong length makes the call fail. -/
theorem gan_call_length_and_normalization_witness :
    GANLoss.call ⟨"ls", 1, 0⟩ bceZero [Sum.inl [[[[0]]]]] true true (some [])
      none = none :=
  (gan_call_length_and_normalization ⟨"ls", 1, 0⟩ bceZero [Sum.inl [[[[0]]]]]
    true true (some []) none).1 [] rfl (by decide)
